import Mathlib

/-!
# Verification of the perspective table/view engine specification

The repository ships only a tutorial notebook
(`examples/jupyter-notebooks/table_tutorial.ipynb`) demonstrating the
`perspective.Table` / `View` API; the engine implementation itself is not
part of the source tree.  Every definition below is therefore a shallow
embedding modelled from the specification's description of the engine
(type inference, columnar table with index/limit, the view materialization
pipeline, and the update/notification protocol), against which the claims
are settled.
-/

namespace Perspective

/-- Modelled from the spec: the six canonical column types
(`integer, float, string, boolean, date, datetime`). -/
inductive CType where
  | integer
  | float
  | string
  | boolean
  | date
  | datetime
deriving DecidableEq, Repr, Fintype

/-- Modelled from the spec: a cell value — a concrete value of one of the
canonical types, or null.  Dates are modelled as day counts and datetimes
as timestamps; floats are modelled as rationals (the claims under
consideration do not exercise rounding behaviour). -/
inductive Value where
  | null
  | vint (i : Int)
  | vfloat (q : Rat)
  | vstr (s : String)
  | vbool (b : Bool)
  | vdate (d : Nat)
  | vdatetime (t : Nat)
deriving DecidableEq, Repr

/-- The canonical type of a single non-null value. -/
def Value.typeOf : Value → CType
  | .null => .string
  | .vint _ => .integer
  | .vfloat _ => .float
  | .vstr _ => .string
  | .vbool _ => .boolean
  | .vdate _ => .date
  | .vdatetime _ => .datetime

def Value.isNull : Value → Bool
  | .null => true
  | _ => false

/-- Modelled from the spec: the join of two canonical types under the
promotion order `integer ⊂ float`, with `string` as the coercion fallback
for otherwise incompatible types. -/
def typeJoin (t u : CType) : CType :=
  if t = u then t
  else if (t = .integer ∧ u = .float) ∨ (t = .float ∧ u = .integer) then .float
  else .string

/-- One inference step: nulls are skipped, the first non-null value seeds
the type, later values widen it through `typeJoin`. -/
def inferStep (acc : Option CType) (v : Value) : Option CType :=
  if v.isNull then acc
  else
    match acc with
    | none => some v.typeOf
    | some t => some (typeJoin t v.typeOf)

/-- Modelled from the spec: type inference for one column — the narrowest
canonical type accommodating all non-null sampled values, with promotion
order `integer ⊂ float`; a column containing only nulls (or no values at
all) defaults to `string`. -/
def inferType (vs : List Value) : CType :=
  (vs.foldl inferStep none).getD .string

/-- `accommodates t v` holds when a column of canonical type `t` can hold
the value `v` without information loss: every type holds null, `float`
holds integers by promotion, and `string` is the universal coercion
target. -/
def accommodates (t : CType) (v : Value) : Bool :=
  match v with
  | .null => true
  | _ => (t == v.typeOf) || (t == .float && v.typeOf == .integer) || (t == .string)

/-- `widerEq t u`: `u` is at least as wide as `t` in the promotion order
(`integer ⊂ float`, everything `⊆ string`). -/
def widerEq (t u : CType) : Prop :=
  t = u ∨ (t = .integer ∧ u = .float) ∨ u = .string

instance (t u : CType) : Decidable (widerEq t u) := by
  unfold widerEq
  infer_instance

/-- Modelled from the spec: the error taxonomy of §7. -/
inductive Err where
  | schemaError
  | columnMismatchError
  | indexErr
  | staleViewError
  | inUseError
deriving DecidableEq, Repr

/-- A row-oriented input row: a name→value mapping (association list);
keys missing from a row become nulls. -/
abbrev InRow := List (String × Value)

/-- A row-oriented input dataset: the canonical internal normalization of
every accepted input shape. -/
abbrev Dataset := List InRow

/-- Look up a column name in an input row. -/
def rowLookup (r : InRow) (n : String) : Option Value :=
  (r.find? (fun p => p.1 == n)).map (fun p => p.2)

/-- Modelled from the spec: a Table — a schema (column names with their
canonical types, insertion order significant), the stored rows (each a
list of cells aligned with `names`), an optional primary-key column, an
optional row limit, and a running count of rows ever appended, which
drives the ring-buffer overwrite position. -/
structure Table where
  names : List String
  types : List CType
  rows : List (List Value)
  index : Option String := none
  limit : Option Nat := none
  counter : Nat := 0
deriving DecidableEq, Repr

namespace Table

/-- `size()` — the number of live rows. -/
def size (t : Table) : Nat := t.rows.length

/-- Expand an input row to a full internal row in schema order; missing
keys become nulls. -/
def fullRow (t : Table) (r : InRow) : List Value :=
  t.names.map (fun n => (rowLookup r n).getD .null)

/-- Modelled from the spec: append one (already expanded) row.  Without a
limit the row goes to the end; with `limit = L`, rows past `L` wrap and
overwrite starting at row 0 — the overwrite target cycles with the count
of rows ever appended. -/
def appendRow (t : Table) (vs : List Value) : Table :=
  match t.limit with
  | none => { t with rows := t.rows ++ [vs], counter := t.counter + 1 }
  | some L =>
    if t.rows.length < L then
      { t with rows := t.rows ++ [vs], counter := t.counter + 1 }
    else
      { t with rows := t.rows.set (t.counter % L) vs, counter := t.counter + 1 }

/-- Merge a partial input row over an existing row: specified columns are
overwritten, unspecified columns retain their prior values. -/
def mergeRow (t : Table) (old : List Value) (r : InRow) : List Value :=
  t.names.enum.map (fun p => (rowLookup r p.2).getD (old.getD p.1 .null))

/-- Position of the primary-key column in the schema. -/
def keyPos (t : Table) (c : String) : Nat := t.names.indexOf c

/-- Find the live row holding primary-key value `k`. -/
def findKey (t : Table) (c : String) (k : Value) : Option Nat :=
  t.rows.findIdx? (fun row => row.getD (t.keyPos c) .null == k)

/-- Does applying this input row take the append path?  True for every
row of an unindexed table; for an indexed table, true exactly when the
row's primary key is missing or matches no live row. -/
def rowIsNew (t : Table) (r : InRow) : Bool :=
  match t.index with
  | none => true
  | some c =>
    match rowLookup r c with
    | none => true
    | some k => (t.findKey c k).isNone

/-- Modelled from the spec: apply one input row.  Unindexed tables always
append.  Indexed tables look the primary key up: a match overwrites that
row in place (partial updates retain prior values, position unchanged);
no match or a missing key appends. -/
def applyRow (t : Table) (r : InRow) : Table :=
  match t.index with
  | none => t.appendRow (t.fullRow r)
  | some c =>
    match rowLookup r c with
    | none => t.appendRow (t.fullRow r)
    | some k =>
      match t.findKey c k with
      | some i => { t with rows := t.rows.set i (t.mergeRow (t.rows.getD i []) r) }
      | none => t.appendRow (t.fullRow r)

/-- Is every column name of the dataset present in the table's schema? -/
def knownCols (t : Table) (d : Dataset) : Bool :=
  d.all (fun r => r.all (fun p => t.names.contains p.1))

/-- The number of input rows that take the append path, counted
sequentially as the rows are applied. -/
def newCount (t : Table) (d : Dataset) : Nat :=
  (d.foldl (fun p r => (p.1.applyRow r, p.2 + (if p.1.rowIsNew r then 1 else 0)))
    (t, 0)).2

/-- Modelled from the spec: `update(dataset)` → row count delta.  Fails
with `ColumnMismatchError` if the dataset introduces a column name absent
from the table's schema; on failure nothing is applied. -/
def update (t : Table) (d : Dataset) : Except Err (Table × Nat) :=
  if t.knownCols d then
    let t' := d.foldl applyRow t
    .ok (t', t'.size - t.size)
  else
    .error .columnMismatchError

/-- Modelled from the spec: `remove(primary_key_list)` — valid only on an
indexed table; removes all rows whose primary-key value is in the given
set, silently ignoring non-matching keys. -/
def remove (t : Table) (ks : List Value) : Except Err (Table × Nat) :=
  match t.index with
  | none => .error .indexErr
  | some c =>
    let keep := t.rows.filter (fun row => ¬ ks.contains (row.getD (t.keyPos c) .null))
    .ok ({ t with rows := keep }, t.rows.length - keep.length)

end Table

/-- A column-oriented input dataset: name → equal-length value sequences. -/
abbrev ColData := List (String × List Value)

/-- The row count of a column-oriented dataset. -/
def colRowCount (d : ColData) : Nat := d.foldl (fun m p => max m p.2.length) 0

/-- Normalize a column-oriented dataset to row-oriented form (short
columns padded with nulls). -/
def colRows (d : ColData) : Dataset :=
  (List.range (colRowCount d)).map (fun i => d.map (fun p => (p.1, p.2.getD i .null)))

/-- The empty table over a column-oriented dataset's schema, with types
inferred per column. -/
def emptyOf (d : ColData) (idx : Option String) (lim : Option Nat) : Table :=
  { names := d.map (fun p => p.1)
    types := d.map (fun p => inferType p.2)
    rows := []
    index := idx
    limit := lim
    counter := 0 }

/-- Modelled from the spec: `create(dataset, options)` — infers each
column's type, fails with `SchemaError` if a declared index column is
absent, and loads the initial rows through the same per-row application
path as `update` (so index upserts and the limit wrap rule apply to the
initial load). -/
def create (d : ColData) (idx : Option String) (lim : Option Nat) :
    Except Err Table :=
  match idx with
  | some c =>
    if (d.map (fun p => p.1)).contains c then
      .ok ((colRows d).foldl Table.applyRow (emptyOf d idx lim))
    else .error .schemaError
  | none => .ok ((colRows d).foldl Table.applyRow (emptyOf d none lim))

/-- A fresh, empty, unindexed table over the given column names (the
result of constructing from a zero-row dataset). -/
def Table.fresh (cols : List String) (lim : Option Nat) : Table :=
  { names := cols
    types := cols.map (fun _ => CType.string)
    rows := []
    index := none
    limit := lim
    counter := 0 }

/-! ## View pipeline -/

/-- Kernel-computable lexicographic order on character lists. -/
def charListLt : List Char → List Char → Bool
  | _, [] => false
  | [], _ :: _ => true
  | c :: cs, d :: ds =>
    if c.toNat < d.toNat then true
    else if d.toNat < c.toNat then false
    else charListLt cs ds

/-- Lexicographic order on strings (by code point). -/
def strLt (a b : String) : Bool := charListLt a.data b.data

/-- A rank used to order values of distinct canonical types. -/
def Value.rank : Value → Nat
  | .null => 0
  | .vbool _ => 1
  | .vint _ => 2
  | .vfloat _ => 3
  | .vdate _ => 4
  | .vdatetime _ => 5
  | .vstr _ => 6

/-- Natural (type-aware) strict order on values, used for distinct-value
ordering in pivots and for sorting. -/
def Value.lt (a b : Value) : Bool :=
  match a, b with
  | .vint x, .vint y => x < y
  | .vint x, .vfloat y => (x : Rat) < y
  | .vfloat x, .vint y => x < (y : Rat)
  | .vfloat x, .vfloat y => x < y
  | .vstr x, .vstr y => strLt x y
  | .vbool x, .vbool y => !x && y
  | .vdate x, .vdate y => x < y
  | .vdatetime x, .vdatetime y => x < y
  | a, b => a.rank < b.rank

/-- Modelled from the spec: the filter operators
`{==, !=, <, <=, >, >=, contains, in, is null}`. -/
inductive FOp where
  | feq | fne | flt | fle | fgt | fge | fcontains | fin | fisnull
deriving DecidableEq, Repr

/-- One filter predicate: column, operator, operand (scalar operators read
the first operand; `in` uses the whole list; `is null` uses none). -/
structure Filt where
  col : String
  op : FOp
  operand : List Value
deriving DecidableEq, Repr

/-- Evaluate one filter predicate on one raw row. -/
def applyFilt (names : List String) (f : Filt) (row : List Value) : Bool :=
  let v := row.getD (names.indexOf f.col) .null
  let x := f.operand.getD 0 .null
  match f.op with
  | .feq => v == x
  | .fne => !(v == x)
  | .flt => Value.lt v x
  | .fle => !(Value.lt x v)
  | .fgt => Value.lt x v
  | .fge => !(Value.lt v x)
  | .fcontains =>
    match v, x with
    | .vstr s, .vstr sub => (s.splitOn sub).length != 1
    | _, _ => false
  | .fin => f.operand.contains v
  | .fisnull => v.isNull

/-- Modelled from the spec: a view configuration — row pivots, column
pivots, per-column aggregate map, projection, sort keys (direction
`"asc"`/`"desc"`), and filter predicates. -/
structure ViewConfig where
  row_pivots : List String := []
  column_pivots : List String := []
  aggregates : List (String × String) := []
  columns : Option (List String) := none
  sort : List (String × String) := []
  filter : List Filt := []
deriving Repr

/-- Insert into a sorted list, before the first element not strictly
below the new one (a stable insertion). -/
def insertBy (lt : α → α → Bool) (x : α) : List α → List α
  | [] => [x]
  | y :: ys => if lt y x then y :: insertBy lt x ys else x :: y :: ys

/-- Stable insertion sort by a strict comparison. -/
def sortByLt (lt : α → α → Bool) : List α → List α
  | [] => []
  | x :: xs => insertBy lt x (sortByLt lt xs)

/-- Lexicographic strict order on pivot keys. -/
def keyLt : List Value → List Value → Bool
  | _, [] => false
  | [], _ :: _ => true
  | a :: as, b :: bs =>
    if Value.lt a b then true
    else if Value.lt b a then false
    else keyLt as bs

/-- The grouping key of a row under the given pivot columns. -/
def keyOf (names : List String) (cols : List String) (row : List Value) :
    List Value :=
  cols.map (fun c => row.getD (names.indexOf c) .null)

/-- The distinct pivot keys occurring in the rows, in ascending natural
order. -/
def groupKeys (names : List String) (cols : List String)
    (rows : List (List Value)) : List (List Value) :=
  sortByLt keyLt ((rows.map (keyOf names cols)).dedup)

/-- Column-pivot split keys; with no column pivots there is a single
unsplit bucket. -/
def splitKeys (names : List String) (cols : List String)
    (rows : List (List Value)) : List (List Value) :=
  if cols.isEmpty then [[]] else groupKeys names cols rows

/-- `sum` aggregate: sum of the non-null values; an all-integer column
sums to an integer, otherwise to a float. -/
def sumAgg (vs : List Value) : Value :=
  let nn := vs.filter (fun v => !v.isNull)
  let isInt : Value → Bool := fun v => match v with | .vint _ => true | _ => false
  let toRat : Value → Rat := fun v =>
    match v with | .vint i => (i : Rat) | .vfloat q => q | _ => 0
  if nn.all isInt then
    .vint (nn.foldl (fun a v => a + (match v with | .vint i => i | _ => 0)) 0)
  else
    .vfloat (nn.foldl (fun a v => a + toRat v) 0)

/-- `count` aggregate: number of non-null values. -/
def countAgg (vs : List Value) : Value :=
  .vint ((vs.filter (fun v => !v.isNull)).length)

/-- `last` aggregate: the last non-null value. -/
def lastAgg (vs : List Value) : Value :=
  ((vs.filter (fun v => !v.isNull)).getLast?).getD .null

/-- `avg` aggregate: mean of the non-null numeric values. -/
def avgAgg (vs : List Value) : Value :=
  let nn := vs.filter (fun v => !v.isNull)
  let toRat : Value → Rat := fun v =>
    match v with | .vint i => (i : Rat) | .vfloat q => q | _ => 0
  if nn.isEmpty then .null
  else .vfloat ((nn.foldl (fun a v => a + toRat v) 0) / (nn.length : Rat))

/-- Resolve an aggregate function by name. -/
def applyAgg (name : String) (vs : List Value) : Value :=
  if name == "sum" then sumAgg vs
  else if name == "count" then countAgg vs
  else if name == "last" then lastAgg vs
  else if name == "avg" then avgAgg vs
  else countAgg vs

/-- Modelled from the spec: the default aggregate per column type — `sum`
for numeric, `count` for string/boolean, `last` for date/datetime. -/
def defaultAgg : CType → String
  | .integer => "sum"
  | .float => "sum"
  | .string => "count"
  | .boolean => "count"
  | .date => "last"
  | .datetime => "last"

/-- The aggregate name configured for a column, or its type default. -/
def aggName (t : Table) (cfg : ViewConfig) (c : String) : String :=
  match (cfg.aggregates.find? (fun p => p.1 == c)).map (fun p => p.2) with
  | some a => a
  | none => defaultAgg (t.types.getD (t.names.indexOf c) .string)

/-- Materialized view output: header names and rows. -/
structure Output where
  cols : List String
  rows : List (List Value)
deriving DecidableEq, Repr

/-- A distinguished output-column name: a reserved prefix, `i` level
marks, a separator, then a base name.  The data-level construction keeps
the name kernel-computable and injective in `(i, base)`. -/
def tagName (pre : String) (i : Nat) (c : String) : String :=
  String.mk (pre.data ++ List.replicate i (Char.ofNat 42) ++ Char.ofNat 124 :: c.data)

/-- The reserved name of the `i`-th pivot-path output column (the
pivot-path analogue of the engine's `__ROW_PATH__` column, one per
row-pivot level). -/
def pathName (i : Nat) (c : String) : String := tagName "__ROW_PATH__" i c

/-- The reserved name of an aggregated sub-column under the `i`-th
column-pivot split (splits are taken in ascending distinct-key order, so
the position tag identifies the pivot value combination injectively). -/
def splitName (i : Nat) (c : String) : String := tagName "__SPLIT__" i c

/-- Does a name lie in the engine's reserved `__`-prefixed namespace?
User tables must not use such names (the engine reserves them for pivot
output, like the real system's `__ROW_PATH__`). -/
def reservedPre (s : String) : Bool :=
  match s.data with
  | '_' :: '_' :: _ => true
  | _ => false

/-- The pivot-path header columns, one per row-pivot level, tagged by
level so the names are distinct. -/
def pathCols : Nat → List String → List String
  | _, [] => []
  | i, c :: cs => pathName i c :: pathCols (i + 1) cs

/-- The aggregated header columns under column pivots: one copy of the
schema per split, each copy tagged by its split position. -/
def splitCols (names : List String) : Nat → List (List Value) → List String
  | _, [] => []
  | i, _ :: ss => names.map (splitName i) ++ splitCols names (i + 1) ss

/-- Modelled from the spec: the pivot+aggregate stage.  Row pivots
produce one aggregated row per distinct key (ascending), preceded by a
synthetic grand-total row whose pivot path is null; column pivots split
each aggregated column into one sub-column per distinct split key.
Output column names are unique by construction: pivot-path columns are
reserved `__ROW_PATH__`-tagged names and split sub-columns are reserved
`__SPLIT__`-tagged names, so they never collide with each other or (for
tables that stay out of the reserved `__` namespace) with schema
names. -/
def pivotStage (t : Table) (cfg : ViewConfig) (rows : List (List Value)) :
    Output :=
  let rp := cfg.row_pivots
  let groups := groupKeys t.names rp rows
  let splits := splitKeys t.names cfg.column_pivots rows
  let aggRow : List (List Value) → List Value := fun sel =>
    (splits.map (fun s =>
      let inSplit :=
        if cfg.column_pivots.isEmpty then sel
        else sel.filter (fun r => keyOf t.names cfg.column_pivots r == s)
      t.names.map (fun c =>
        applyAgg (aggName t cfg c)
          (inSplit.map (fun r => r.getD (t.names.indexOf c) .null))))).flatten
  let totalRow := rp.map (fun _ => Value.null) ++ aggRow rows
  let groupRows := groups.map (fun g =>
    g ++ aggRow (rows.filter (fun r => keyOf t.names rp r == g)))
  let aggCols :=
    if cfg.column_pivots.isEmpty then t.names else splitCols t.names 0 splits
  ⟨pathCols 0 rp ++ aggCols, totalRow :: groupRows⟩

/-- Strict row order induced by the configured sort keys (lexicographic,
`"desc"` reverses a key's direction). -/
def rowSortLt (names : List String) :
    List (String × String) → List Value → List Value → Bool
  | [], _, _ => false
  | (c, dir) :: rest, r1, r2 =>
    let a := r1.getD (names.indexOf c) .null
    let b := r2.getD (names.indexOf c) .null
    let x := if dir == "desc" then b else a
    let y := if dir == "desc" then a else b
    if Value.lt x y then true
    else if Value.lt y x then false
    else rowSortLt names rest r1 r2

/-- Modelled from the spec: the view pipeline
`filter → pivot/aggregate → sort → project`.  Zero row- and
column-pivots make the pivot stage the identity; an absent projection
yields all columns. -/
def materialize (t : Table) (cfg : ViewConfig) : Output :=
  let rows1 := t.rows.filter (fun r => cfg.filter.all (fun f => applyFilt t.names f r))
  let o2 : Output :=
    if cfg.row_pivots.isEmpty && cfg.column_pivots.isEmpty then ⟨t.names, rows1⟩
    else pivotStage t cfg rows1
  let rows3 := sortByLt (rowSortLt o2.cols cfg.sort) o2.rows
  match cfg.columns with
  | none => ⟨o2.cols, rows3⟩
  | some cs => ⟨cs, rows3.map (fun r => cs.map (fun c => r.getD (o2.cols.indexOf c) .null))⟩

/-- The number of output rows (`num_rows()`). -/
def numRows (o : Output) : Nat := o.rows.length

/-! ## Serialization adapters -/

/-- Row-oriented serialization (`to_records`): one name→value mapping per
row. -/
def toRecords (o : Output) : List InRow :=
  o.rows.map (fun r => o.cols.zip r)

/-- Column-oriented serialization (`to_dict`): name → value sequence, in
header order. -/
def toDict (o : Output) : List (String × List Value) :=
  o.cols.enum.map (fun p => (p.2, o.rows.map (fun r => r.getD p.1 .null)))

/-- Reconstruct a column-oriented form from row-oriented records. -/
def recordsToCols (cols : List String) (recs : List InRow) :
    List (String × List Value) :=
  cols.map (fun c => (c, recs.map (fun r => (rowLookup r c).getD .null)))

/-- Table well-formedness: every stored row has one cell per column. -/
def Table.WF (t : Table) : Prop :=
  ∀ r ∈ t.rows, r.length = t.names.length

/-- Output well-formedness: every output row has one cell per header. -/
def Output.WF (o : Output) : Prop :=
  ∀ r ∈ o.rows, r.length = o.cols.length

/-! ## Change propagation and callback registry -/

/-- Modelled from the spec: a View bound to a Table — its immutable
configuration, its materialized output, the ordered registration list of
update observers (by identifier), and the log of observer invocations
(appended to once per observer per settled mutation, in dispatch
order). -/
structure ViewInst where
  cfg : ViewConfig
  mat : Output
  updObs : List Nat
  log : List Nat

/-- Modelled from the spec: a Table together with its registered Views. -/
structure World where
  table : Table
  views : List ViewInst

namespace World

/-- Create a View on the table: bind a configuration, materialize it,
register it for notifications. -/
def addView (w : World) (cfg : ViewConfig) : World :=
  { w with
    views := w.views ++ [{ cfg := cfg, mat := materialize w.table cfg,
                           updObs := [], log := [] }] }

/-- Apply a function to the view at the given registration position. -/
def modifyView (w : World) (vi : Nat) (f : ViewInst → ViewInst) : World :=
  match w.views[vi]? with
  | some v => { w with views := w.views.set vi (f v) }
  | none => w

/-- `on_update(observer)` on the view at position `vi`: append the
observer to the registration list. -/
def onUpdate (w : World) (vi : Nat) (o : Nat) : World :=
  w.modifyView vi (fun v => { v with updObs := v.updObs ++ [o] })

/-- Modelled from the spec: `remove_update(observer)` — removes a
previously registered observer; a no-op (never an error) if the observer
is not registered. -/
def removeUpdate (w : World) (vi : Nat) (o : Nat) : World :=
  w.modifyView vi (fun v => { v with updObs := v.updObs.filter (fun x => x ≠ o) })

/-- Recompute one view against the post-mutation table and invoke its
update observers in registration order. -/
def dispatchView (t' : Table) (v : ViewInst) : ViewInst :=
  { v with mat := materialize t' v.cfg, log := v.log ++ v.updObs }

/-- Modelled from the spec: `update` at the system level.  On success the
mutation settles, every registered view is recomputed and its observers
are notified before control returns; on failure the table and all views
are left exactly in their pre-call state. -/
def update (w : World) (d : Dataset) : World × Except Err Nat :=
  match w.table.update d with
  | .error e => (w, .error e)
  | .ok (t', delta) =>
    ({ table := t', views := w.views.map (dispatchView t') }, .ok delta)

/-- Modelled from the spec: `remove` at the system level — valid only on
an indexed table.  On success the mutation settles, every registered view
is recomputed and its update observers are notified before control
returns; on failure the table and all views are left exactly in their
pre-call state. -/
def remove (w : World) (ks : List Value) : World × Except Err Nat :=
  match w.table.remove ks with
  | .error e => (w, .error e)
  | .ok (t', n) =>
    ({ table := t', views := w.views.map (dispatchView t') }, .ok n)

/-- The number of times observer `o` of view `vi` has been invoked. -/
def invocations (w : World) (vi : Nat) (o : Nat) : Nat :=
  match w.views[vi]? with
  | some v => v.log.count o
  | none => 0

end World

/-- A mutation of a table: an `update` batch or a `remove` by key list. -/
inductive Mutation where
  | upd (d : Dataset)
  | rem (ks : List Value)

/-- Apply one mutation, keeping the resulting world (spec section 4.1:
every successful `update`/`remove` recomputes the registered views and
dispatches their update callbacks; a failed mutation changes nothing). -/
def World.applyMutation (w : World) : Mutation → World
  | .upd d => (w.update d).1
  | .rem ks => (w.remove ks).1

/-- A concrete one-column table with a single registered view carrying
one update observer (id 7), mirroring the notebook's callback example. -/
def exObsWorld : World :=
  { table := { names := ["a"], types := [CType.integer],
               rows := [[Value.vint 1]], index := none, limit := none,
               counter := 1 },
    views := [{ cfg := {}, mat := ⟨["a"], [[Value.vint 1]]⟩,
                updObs := [7], log := [] }] }

/-- A concrete valid update batch for `exObsWorld`. -/
def exUpd : Dataset := [[("a", Value.vint 2)]]

/-- Tables reachable through the public operations while constructed with
`limit = L`: initial construction, then any sequence of successful
`update` and `remove` calls. -/
inductive ReachableL (L : Nat) : Table → Prop where
  | created (d : ColData) (idx : Option String) (t : Table) :
      create d idx (some L) = .ok t → ReachableL L t
  | updated (t : Table) (d : Dataset) (t' : Table) (n : Nat) :
      ReachableL L t → t.update d = .ok (t', n) → ReachableL L t'
  | removed (t : Table) (ks : List Value) (t' : Table) (n : Nat) :
      ReachableL L t → t.remove ks = .ok (t', n) → ReachableL L t'

/-- A concrete indexed table (primary key `"k"`, no limit) holding the
single row `k = 0, v = 0`. -/
def exIdxTable : Table :=
  { names := ["k", "v"], types := [CType.integer, CType.integer],
    rows := [[Value.vint 0, Value.vint 0]], index := some "k",
    limit := none, counter := 1 }

/-- The same indexed table but constructed with `limit = 1`. -/
def exIdxLim : Table :=
  { names := ["k", "v"], types := [CType.integer, CType.integer],
    rows := [[Value.vint 0, Value.vint 0]], index := some "k",
    limit := some 1, counter := 1 }

/-- The indexed example table with one registered view carrying one
update observer (id 7); `remove` succeeds on it. -/
def exIdxWorld : World :=
  { table := exIdxTable,
    views := [{ cfg := {}, mat := ⟨["k", "v"], [[Value.vint 0, Value.vint 0]]⟩,
                updObs := [7], log := [] }] }

/-! ## Theorems -/

lemma widerEq_refl (t : CType) : widerEq t t := Or.inl rfl

lemma widerEq_trans : ∀ t u v : CType, widerEq t u → widerEq u v → widerEq t v := by
  decide

lemma typeJoin_le_left : ∀ t u : CType, widerEq t (typeJoin t u) := by decide

lemma typeJoin_le_right : ∀ t u : CType, widerEq u (typeJoin t u) := by decide

lemma typeJoin_lub : ∀ t c u : CType,
    widerEq t u → widerEq c u → widerEq (typeJoin t c) u := by decide

lemma accomB_iff_widerEq : ∀ t c : CType,
    ((t == c) || (t == CType.float && c == CType.integer) ||
      (t == CType.string)) = true ↔ widerEq c t := by decide

/-- For a non-null value, accommodation is the widening order from the
value's own type. -/
lemma accommodates_iff_widerEq (t : CType) (v : Value) (h : v.isNull = false) :
    accommodates t v = true ↔ widerEq v.typeOf t := by
  cases v <;> simp_all [Value.isNull] <;>
    exact accomB_iff_widerEq t _

/-- Applying `inferStep` over only-null values leaves the accumulator
untouched. -/
lemma foldl_inferStep_nulls (vs : List Value) (acc : Option CType)
    (h : ∀ v ∈ vs, v.isNull = true) : vs.foldl inferStep acc = acc := by
  induction vs generalizing acc with
  | nil => rfl
  | cons v vs ih =>
    have hv : v.isNull = true := h v (List.mem_cons_self v vs)
    simp only [List.foldl_cons, inferStep, hv, if_pos]
    exact ih acc (fun x hx => h x (List.mem_cons_of_mem v hx))

/-- Soundness of the inference fold from a seeded type: it stays `some`,
only widens the seed, and accommodates every non-null value seen. -/
lemma foldl_inferStep_sound (vs : List Value) (t0 : CType) :
    ∃ T, vs.foldl inferStep (some t0) = some T ∧ widerEq t0 T ∧
      ∀ v ∈ vs, v.isNull = false → accommodates T v = true := by
  induction vs generalizing t0 with
  | nil => exact ⟨t0, rfl, widerEq_refl t0, by simp⟩
  | cons v vs ih =>
    cases hv : v.isNull with
    | true =>
      obtain ⟨T, h1, h2, h3⟩ := ih t0
      refine ⟨T, ?_, h2, ?_⟩
      · simpa only [List.foldl_cons, inferStep, hv, if_pos] using h1
      · intro x hx hxn
        rcases List.mem_cons.mp hx with rfl | hx
        · exact absurd hv (by simp [hxn])
        · exact h3 x hx hxn
    | false =>
      obtain ⟨T, h1, h2, h3⟩ := ih (typeJoin t0 v.typeOf)
      refine ⟨T, ?_, widerEq_trans _ _ _ (typeJoin_le_left t0 v.typeOf) h2, ?_⟩
      · simpa only [List.foldl_cons, inferStep, hv, if_neg] using h1
      · intro x hx hxn
        rcases List.mem_cons.mp hx with rfl | hx
        · exact (accommodates_iff_widerEq T x hxn).mpr
            (widerEq_trans _ _ _ (typeJoin_le_right t0 x.typeOf) h2)
        · exact h3 x hx hxn

/-- Minimality of the inference fold: any type at least as wide as the
seed that accommodates every value dominates the result. -/
lemma foldl_inferStep_min (vs : List Value) (t0 T u : CType)
    (h : vs.foldl inferStep (some t0) = some T) (h0 : widerEq t0 u)
    (hacc : ∀ v ∈ vs, accommodates u v = true) : widerEq T u := by
  induction vs generalizing t0 with
  | nil =>
    cases h
    exact h0
  | cons v vs ih =>
    cases hv : v.isNull with
    | true =>
      have h' : vs.foldl inferStep (some t0) = some T := by
        simpa only [List.foldl_cons, inferStep, hv, if_pos] using h
      exact ih t0 h' h0 (fun x hx => hacc x (List.mem_cons_of_mem v hx))
    | false =>
      have h' : vs.foldl inferStep (some (typeJoin t0 v.typeOf)) = some T := by
        simpa only [List.foldl_cons, inferStep, hv, if_neg] using h
      have hvu : widerEq v.typeOf u :=
        (accommodates_iff_widerEq u v hv).mp (hacc v (List.mem_cons_self v vs))
      exact ih (typeJoin t0 v.typeOf) h' (typeJoin_lub _ _ _ h0 hvu)
        (fun x hx => hacc x (List.mem_cons_of_mem v hx))

/-- Claim C9: schema-less type inference is deterministic — two
constructions from the same dataset produce identical tables (in
particular identical column types); each column's inferred type is the
narrowest canonical type accommodating all its non-null values (with
`integer` promoted to `float` when needed); and a column containing only
nulls, or no values at all, defaults to `string`. -/
theorem claim9_type_inference :
    (∀ (d : ColData) (idx : Option String) (lim : Option Nat) (t1 t2 : Table),
      create d idx lim = .ok t1 → create d idx lim = .ok t2 →
        t1.types = t2.types ∧ t1 = t2) ∧
    (∀ vs : List Value, (∀ v ∈ vs, v.isNull = true) → inferType vs = .string) ∧
    (∀ vs : List Value, (∃ v ∈ vs, v.isNull = false) →
      (∀ v ∈ vs, accommodates (inferType vs) v = true) ∧
      (∀ u : CType, (∀ v ∈ vs, accommodates u v = true) → widerEq (inferType vs) u)) := by
  refine ⟨?_, ?_, ?_⟩
  · intro d idx lim t1 t2 h1 h2
    rw [h1] at h2
    cases h2
    exact ⟨rfl, rfl⟩
  · intro vs h
    unfold inferType
    rw [foldl_inferStep_nulls vs none h]
    rfl
  · intro vs hex
    induction vs with
    | nil => simp at hex
    | cons v vs ih =>
      cases hv : v.isNull with
      | false =>
        have hstep : (v :: vs).foldl inferStep none = vs.foldl inferStep (some v.typeOf) := by
          simp only [List.foldl_cons, inferStep, hv, if_neg]
          rfl
        obtain ⟨T, h1, h2, h3⟩ := foldl_inferStep_sound vs v.typeOf
        have hT : inferType (v :: vs) = T := by
          unfold inferType
          rw [hstep, h1]
          rfl
        constructor
        · intro x hx
          rw [hT]
          rcases List.mem_cons.mp hx with rfl | hx
          · exact (accommodates_iff_widerEq T x hv).mpr h2
          · cases hxn : x.isNull with
            | true => cases x <;> first | rfl | simp [Value.isNull] at hxn
            | false => exact h3 x hx hxn
        · intro u hu
          rw [hT]
          have hvu : widerEq v.typeOf u :=
            (accommodates_iff_widerEq u v hv).mp (hu v (List.mem_cons_self v vs))
          exact foldl_inferStep_min vs v.typeOf T u (hstep ▸ h1) hvu
            (fun x hx => hu x (List.mem_cons_of_mem v hx))
      | true =>
        have hstep : (v :: vs).foldl inferStep none = vs.foldl inferStep none := by
          simp only [List.foldl_cons, inferStep, hv, if_pos]
        have hT : inferType (v :: vs) = inferType vs := by
          unfold inferType
          rw [hstep]
        obtain ⟨x, hx, hxn⟩ := hex
        rcases List.mem_cons.mp hx with rfl | hx'
        · exact absurd hv (by simp [hxn])
        · obtain ⟨hs, hm⟩ := ih ⟨x, hx', hxn⟩
          constructor
          · intro y hy
            rw [hT]
            rcases List.mem_cons.mp hy with rfl | hy'
            · cases y <;> first | rfl | simp [Value.isNull] at hv
            · exact hs y hy'
          · intro u hu
            rw [hT]
            exact hm u (fun y hy => hu y (List.mem_cons_of_mem v hy))

/-- Witness for claim C9 at concrete inputs: an all-null column infers
`string`, and a mixed integer/float column infers a type accommodating
its integer values (namely `float`). -/
theorem claim9_type_inference_witness :
    inferType [Value.null, Value.null] = .string ∧
    accommodates (inferType [Value.vint 1, Value.vfloat (3 / 2 : Rat)])
      (Value.vint 1) = true :=
  ⟨claim9_type_inference.2.1 [Value.null, Value.null] (by decide),
   (claim9_type_inference.2.2 [Value.vint 1, Value.vfloat (3 / 2 : Rat)]
      ⟨Value.vint 1, by simp, by decide⟩).1 (Value.vint 1) (by simp)⟩

/-! ### Table mutation lemmas -/

namespace Table

lemma appendRow_meta (t : Table) (vs : List Value) :
    (t.appendRow vs).names = t.names ∧ (t.appendRow vs).types = t.types ∧
    (t.appendRow vs).index = t.index ∧ (t.appendRow vs).limit = t.limit ∧
    (t.appendRow vs).counter = t.counter + 1 := by
  unfold appendRow
  cases h : t.limit with
  | none => exact ⟨rfl, rfl, rfl, rfl, rfl⟩
  | some L =>
    dsimp only
    split <;> exact ⟨rfl, rfl, rfl, rfl, rfl⟩

lemma applyRow_meta (t : Table) (r : InRow) :
    (t.applyRow r).names = t.names ∧ (t.applyRow r).types = t.types ∧
    (t.applyRow r).index = t.index ∧ (t.applyRow r).limit = t.limit := by
  unfold applyRow
  cases h : t.index with
  | none =>
    dsimp only
    exact ⟨(t.appendRow_meta _).1, (t.appendRow_meta _).2.1,
      (t.appendRow_meta _).2.2.1.trans h, (t.appendRow_meta _).2.2.2.1⟩
  | some c =>
    dsimp only
    cases rowLookup r c with
    | none =>
      exact ⟨(t.appendRow_meta _).1, (t.appendRow_meta _).2.1,
        (t.appendRow_meta _).2.2.1.trans h, (t.appendRow_meta _).2.2.2.1⟩
    | some k =>
      dsimp only
      cases t.findKey c k with
      | some i => exact ⟨rfl, rfl, rfl, rfl⟩
      | none => exact ⟨(t.appendRow_meta _).1, (t.appendRow_meta _).2.1,
          (t.appendRow_meta _).2.2.1.trans h, (t.appendRow_meta _).2.2.2.1⟩

lemma appendRow_size_le (t : Table) (vs : List Value) (L : Nat)
    (h : t.limit = some L) (hs : t.size ≤ L) : (t.appendRow vs).size ≤ L := by
  unfold appendRow
  rw [h]
  dsimp only
  split
  · next hlt => simpa [size] using hlt
  · simpa [size] using hs

lemma applyRow_size_le (t : Table) (r : InRow) (L : Nat)
    (h : t.limit = some L) (hs : t.size ≤ L) : (t.applyRow r).size ≤ L := by
  unfold applyRow
  cases t.index with
  | none => exact t.appendRow_size_le _ L h hs
  | some c =>
    dsimp only
    cases rowLookup r c with
    | none => exact t.appendRow_size_le _ L h hs
    | some k =>
      dsimp only
      cases t.findKey c k with
      | some i => simpa [size] using hs
      | none => exact t.appendRow_size_le _ L h hs

lemma foldl_applyRow_le (d : Dataset) (t : Table) (L : Nat)
    (h : t.limit = some L) (hs : t.size ≤ L) :
    (d.foldl applyRow t).limit = some L ∧ (d.foldl applyRow t).size ≤ L := by
  induction d generalizing t with
  | nil => exact ⟨h, hs⟩
  | cons r d ih =>
    have hm := t.applyRow_meta r
    exact ih (t.applyRow r) (hm.2.2.2 ▸ h) (t.applyRow_size_le r L h hs)

end Table

lemma create_ok_le (d : ColData) (idx : Option String) (L : Nat) (t : Table)
    (h : create d idx (some L) = .ok t) : t.limit = some L ∧ t.size ≤ L := by
  unfold create at h
  cases idx with
  | none =>
    cases h
    exact Table.foldl_applyRow_le _ _ L rfl (Nat.zero_le L)
  | some c =>
    dsimp only at h
    split at h
    · cases h
      exact Table.foldl_applyRow_le _ _ L rfl (Nat.zero_le L)
    · exact absurd h (by simp)

lemma update_ok_le (t : Table) (d : Dataset) (t' : Table) (n : Nat) (L : Nat)
    (h : t.update d = .ok (t', n)) (hl : t.limit = some L) (hs : t.size ≤ L) :
    t'.limit = some L ∧ t'.size ≤ L := by
  unfold Table.update at h
  split at h
  · cases h
    exact Table.foldl_applyRow_le _ _ L hl hs
  · exact absurd h (by simp)

lemma remove_ok_le (t : Table) (ks : List Value) (t' : Table) (n : Nat) (L : Nat)
    (h : t.remove ks = .ok (t', n)) (hl : t.limit = some L) (hs : t.size ≤ L) :
    t'.limit = some L ∧ t'.size ≤ L := by
  unfold Table.remove at h
  cases hidx : t.index with
  | none =>
    rw [hidx] at h
    exact absurd h (by simp)
  | some c =>
    rw [hidx] at h
    dsimp only at h
    cases h
    exact ⟨hl, le_trans (List.length_filter_le _ t.rows) hs⟩

/-- Claim C10: a table constructed with `limit = L` never holds more than
`L` rows: construction from a dataset of any size succeeds (it never
raises), the ring-buffer rule applies to the initial load exactly as it
does to `update`, and every table reachable through the public mutation
operations satisfies `size() ≤ L`. -/
theorem claim10_limit_invariant (L : Nat) :
    (∀ d : ColData, ∃ t, create d none (some L) = .ok t) ∧
    (∀ t : Table, ReachableL L t → t.limit = some L ∧ t.size ≤ L) := by
  constructor
  · intro d
    exact ⟨_, rfl⟩
  · intro t h
    induction h with
    | created d idx t hc => exact create_ok_le d idx L t hc
    | updated t d t' n _ hu ih => exact update_ok_le t d t' n L hu ih.1 ih.2
    | removed t ks t' n _ hr ih => exact remove_ok_le t ks t' n L hr ih.1 ih.2

/-- Witness for claim C10: constructing with `limit = 2` from a 3-row
dataset succeeds, and the resulting table holds `size() = 2 ≤ 2` rows. -/
theorem claim10_limit_invariant_witness :
    (∃ t, create [("a", [Value.vint 0, Value.vint 1, Value.vint 2])] none
        (some 2) = .ok t) ∧
    Table.size
      { names := ["a"], types := [CType.integer],
        rows := [[Value.vint 2], [Value.vint 1]], index := none,
        limit := some 2, counter := 3 } ≤ 2 :=
  ⟨(claim10_limit_invariant 2).1 [("a", [Value.vint 0, Value.vint 1, Value.vint 2])],
   ((claim10_limit_invariant 2).2 _
      (ReachableL.created [("a", [Value.vint 0, Value.vint 1, Value.vint 2])]
        none _ (by rfl))).2⟩

/-! ### Ring-buffer lemmas -/

lemma applyRow_unindexed (t : Table) (r : InRow) (h : t.index = none) :
    t.applyRow r = t.appendRow (t.fullRow r) := by
  unfold Table.applyRow
  rw [h]

lemma fullRow_congr (t1 t2 : Table) (r : InRow) (h : t1.names = t2.names) :
    t1.fullRow r = t2.fullRow r := by
  unfold Table.fullRow
  rw [h]

lemma foldl_applyRow_meta (d : Dataset) (t : Table) :
    (d.foldl Table.applyRow t).names = t.names ∧
    (d.foldl Table.applyRow t).index = t.index ∧
    (d.foldl Table.applyRow t).limit = t.limit := by
  induction d generalizing t with
  | nil => exact ⟨rfl, rfl, rfl⟩
  | cons r d ih =>
    obtain ⟨h1, h2, h3, h4⟩ := t.applyRow_meta r
    obtain ⟨g1, g2, g3⟩ := ih (t.applyRow r)
    exact ⟨g1.trans h1, g2.trans h3, g3.trans h4⟩

/-- If two residues below `N` agree mod `L` and both lie within the last
`L` slots, they are equal; contrapositive form used for the ring buffer. -/
lemma ring_mod_ne (k N L : Nat) (hk : k < N) (hge : N + 1 - L ≤ k) :
    ¬ N % L = k % L := by
  intro h
  have hdvd : L ∣ (N - k) := Nat.dvd_of_mod_eq_zero (Nat.sub_mod_eq_zero_of_mod_eq h)
  have hle : L ≤ N - k := Nat.le_of_dvd (by omega) hdvd
  omega

/-- The ring-buffer characterization: feeding `d` into a fresh unindexed
table with `limit = L` leaves `counter = N`, `size = min N L`, and each of
the last `L` input rows retained at position `k % L`. -/
lemma ring_foldl (t0 : Table) (L : Nat) (hL : 0 < L) (h0r : t0.rows = [])
    (h0c : t0.counter = 0) (h0i : t0.index = none) (h0l : t0.limit = some L)
    (d : Dataset) :
    (d.foldl Table.applyRow t0).counter = d.length ∧
    (d.foldl Table.applyRow t0).size = min d.length L ∧
    ∀ k, k < d.length → d.length - L ≤ k →
      (d.foldl Table.applyRow t0).rows[k % L]? = (d[k]?).map t0.fullRow := by
  induction d using List.reverseRecOn with
  | nil =>
    refine ⟨h0c, ?_, ?_⟩
    · simp [Table.size, h0r]
    · intro k hk
      simp at hk
  | append_singleton d r ih =>
    obtain ⟨hc, hs, hcont⟩ := ih
    obtain ⟨hn1, hi1, hl1⟩ := foldl_applyRow_meta d t0
    have hstep : (d ++ [r]).foldl Table.applyRow t0
        = (d.foldl Table.applyRow t0).appendRow (t0.fullRow r) := by
      simp only [List.foldl_append, List.foldl_cons, List.foldl_nil]
      rw [applyRow_unindexed _ r (hi1.trans h0i), fullRow_congr _ t0 r hn1]
    have hlen : (d.foldl Table.applyRow t0).rows.length = min d.length L := hs
    rw [hstep]
    unfold Table.appendRow
    rw [hl1.trans h0l]
    dsimp only
    split
    · -- still filling: the new row goes to the end
      next hlt =>
      rw [hlen] at hlt
      have hNL : d.length < L := by omega
      have hlenN : (d.foldl Table.applyRow t0).rows.length = d.length := by omega
      refine ⟨?_, ?_, ?_⟩
      · simp [hc]
      · simp only [Table.size, List.length_append, List.length_singleton, hlenN]
        omega
      · intro k hk hge
        simp only [List.length_append, List.length_singleton] at hk
        rcases Nat.lt_succ_iff_lt_or_eq.mp hk with hklt | hkeq
        · have hkL : k % L = k := Nat.mod_eq_of_lt (by omega)
          rw [hkL, List.getElem?_append_left (by omega : k < (d.foldl Table.applyRow t0).rows.length),
            List.getElem?_append_left hklt]
          have hc2 := hcont k hklt (by omega)
          rwa [hkL] at hc2
        · have hkL : k % L = k := Nat.mod_eq_of_lt (by omega)
          rw [hkL]
          have h1 : ((d.foldl Table.applyRow t0).rows ++ [t0.fullRow r])[k]?
              = some (t0.fullRow r) := by
            rw [hkeq, ← hlenN]
            exact List.getElem?_concat_length _ _
          have h2 : (d ++ [r])[k]? = some r := by
            rw [hkeq]
            exact List.getElem?_concat_length d r
          rw [h1, h2]
          rfl
    · -- buffer full: overwrite at position counter % L
      next hlt =>
      rw [hlen] at hlt
      have hNL : L ≤ d.length := by omega
      have hlenL : (d.foldl Table.applyRow t0).rows.length = L := by omega
      refine ⟨?_, ?_, ?_⟩
      · simp [hc]
      · simp only [Table.size, List.length_set, hlenL, List.length_append,
          List.length_singleton]
        omega
      · intro k hk hge
        simp only [List.length_append, List.length_singleton] at hk hge
        rcases Nat.lt_succ_iff_lt_or_eq.mp hk with hklt | hkeq
        · have hne : ¬ (d.foldl Table.applyRow t0).counter % L = k % L := by
            rw [hc]
            exact ring_mod_ne k d.length L hklt hge
          rw [List.getElem?_set_ne hne, List.getElem?_append_left hklt]
          exact hcont k hklt (by omega)
        · have hmod : (d.foldl Table.applyRow t0).counter % L = k % L := by
            rw [hc, hkeq]
          rw [← hmod]
          have hlt2 : (d.foldl Table.applyRow t0).counter % L
              < (d.foldl Table.applyRow t0).rows.length := by
            rw [hlenL]
            exact Nat.mod_lt _ hL
          rw [List.getElem?_set_self hlt2]
          have h2 : (d ++ [r])[k]? = some r := by
            rw [hkeq]
            exact List.getElem?_concat_length d r
          rw [h2]
          rfl

/-- Claim C2 as stated is false at a concrete input: on an unindexed
table with `limit = 2`, after `N = 3` appended rows the table does hold
the most-recently-applied 2 rows, but the row at position `N mod L = 1`
holds the second-newest row, not the latest overwrite (which sits at
position `(N - 1) mod L = 0`). -/
theorem claim2_ring_buffer_counterexample :
    Table.update (Table.fresh ["a"] (some 2))
        [[("a", Value.vint 0)], [("a", Value.vint 1)], [("a", Value.vint 2)]]
      = .ok ({ names := ["a"], types := [CType.string],
               rows := [[Value.vint 2], [Value.vint 1]], index := none,
               limit := some 2, counter := 3 }, 2) ∧
    ¬ ({ names := ["a"], types := [CType.string],
         rows := [[Value.vint 2], [Value.vint 1]], index := none,
         limit := some 2, counter := 3 } : Table).rows[3 % 2]?
        = some ((Table.fresh ["a"] (some 2)).fullRow [("a", Value.vint 2)]) := by
  exact ⟨rfl, by decide⟩

/-- Claim C2 (amended): for an unindexed table created with `limit = L`,
after `N > L` rows are appended via `update`, `size() = L` and the
retained rows are the most-recently-applied `L` in ring-buffer order —
appends past `L` wrap and overwrite starting at row 0, appended row `k`
(0-based) lands at position `k % L`, and the row at position
`(N − 1) mod L` (not `N mod L`, which is the next overwrite target) holds
the latest appended row. -/
theorem claim2_ring_buffer (cols : List String) (L : Nat) (hL : 0 < L)
    (d : Dataset) (hN : L < d.length) (t' : Table) (n : Nat)
    (h : (Table.fresh cols (some L)).update d = .ok (t', n)) :
    t'.size = L ∧
    (∀ k, k < d.length → d.length - L ≤ k →
      t'.rows[k % L]? = (d[k]?).map (Table.fresh cols (some L)).fullRow) ∧
    t'.rows[(d.length - 1) % L]?
      = (d[d.length - 1]?).map (Table.fresh cols (some L)).fullRow := by
  unfold Table.update at h
  split at h
  · cases h
    obtain ⟨hc, hs, hcont⟩ :=
      ring_foldl (Table.fresh cols (some L)) L hL rfl rfl rfl rfl d
    refine ⟨?_, hcont, ?_⟩
    · rw [hs]
      omega
    · exact hcont (d.length - 1) (by omega) (by omega)
  · exact absurd h (by simp)

/-- Witness for claim C2 at a concrete input: limit 2, three appended
rows; the table retains the last two rows and the latest sits at position
`(3 − 1) mod 2 = 0`. -/
theorem claim2_ring_buffer_witness :
    Table.size
      { names := ["a"], types := [CType.string],
        rows := [[Value.vint 2], [Value.vint 1]], index := none,
        limit := some 2, counter := 3 } = 2 ∧
    ({ names := ["a"], types := [CType.string],
       rows := [[Value.vint 2], [Value.vint 1]], index := none,
       limit := some 2, counter := 3 } : Table).rows[0]? = some [Value.vint 2] := by
  have thm := claim2_ring_buffer ["a"] 2 (by decide)
    [[("a", Value.vint 0)], [("a", Value.vint 1)], [("a", Value.vint 2)]]
    (by decide)
    { names := ["a"], types := [CType.string],
      rows := [[Value.vint 2], [Value.vint 1]], index := none,
      limit := some 2, counter := 3 } 2 (by rfl)
  exact ⟨thm.1, thm.2.2⟩

/-! ### Indexed-update lemmas -/

lemma applyRow_match (t : Table) (r : InRow) (c : String) (k : Value) (i : Nat)
    (hix : t.index = some c) (hr : rowLookup r c = some k)
    (hf : t.findKey c k = some i) :
    t.applyRow r = { t with rows := t.rows.set i (t.mergeRow (t.rows.getD i []) r) } := by
  unfold Table.applyRow
  rw [hix]
  dsimp only
  rw [hr]
  dsimp only
  rw [hf]

lemma appendRow_noLimit (t : Table) (vs : List Value) (hlim : t.limit = none) :
    t.appendRow vs = { t with rows := t.rows ++ [vs], counter := t.counter + 1 } := by
  unfold Table.appendRow
  rw [hlim]

lemma applyRow_new (t : Table) (r : InRow) (hlim : t.limit = none)
    (hnew : t.rowIsNew r = true) :
    t.applyRow r = { t with rows := t.rows ++ [t.fullRow r],
                            counter := t.counter + 1 } := by
  unfold Table.applyRow
  unfold Table.rowIsNew at hnew
  cases hix : t.index with
  | none =>
    dsimp only
    rw [appendRow_noLimit t _ hlim, hix]
  | some c =>
    rw [hix] at hnew
    dsimp only at hnew ⊢
    cases hr : rowLookup r c with
    | none =>
      dsimp only
      rw [appendRow_noLimit t _ hlim, hix]
    | some k =>
      rw [hr] at hnew
      dsimp only at hnew ⊢
      cases hf : t.findKey c k with
      | none =>
        dsimp only
        rw [appendRow_noLimit t _ hlim, hix]
      | some i =>
        rw [hf] at hnew
        simp [Option.isNone] at hnew

lemma applyRow_size_noLimit (t : Table) (r : InRow) (hlim : t.limit = none) :
    (t.applyRow r).size = t.size + (if t.rowIsNew r then 1 else 0) := by
  cases hnew : t.rowIsNew r with
  | true =>
    rw [applyRow_new t r hlim hnew]
    simp [Table.size]
  | false =>
    unfold Table.rowIsNew at hnew
    unfold Table.applyRow
    cases hix : t.index with
    | none => simp [hix] at hnew
    | some c =>
      rw [hix] at hnew
      dsimp only at hnew ⊢
      cases hr : rowLookup r c with
      | none => simp [hr] at hnew
      | some k =>
        rw [hr] at hnew
        dsimp only at hnew ⊢
        cases hf : t.findKey c k with
        | none =>
          rw [hf] at hnew
          simp at hnew
        | some i =>
          dsimp only
          simp [Table.size]

lemma newCount_aux (d : Dataset) (t : Table) (m : Nat) :
    (d.foldl (fun p r => (p.1.applyRow r, p.2 + (if p.1.rowIsNew r then 1 else 0)))
      (t, m)).2
    = m + (d.foldl
        (fun p r => (p.1.applyRow r, p.2 + (if p.1.rowIsNew r then 1 else 0)))
        (t, 0)).2 := by
  induction d generalizing t m with
  | nil => simp
  | cons r d ih =>
    simp only [List.foldl_cons]
    have h1 := ih (t.applyRow r) (m + (if t.rowIsNew r then 1 else 0))
    have h2 := ih (t.applyRow r) (0 + (if t.rowIsNew r then 1 else 0))
    rw [h1, h2]
    omega

lemma newCount_cons (t : Table) (r : InRow) (d : Dataset) :
    t.newCount (r :: d)
      = (if t.rowIsNew r then 1 else 0) + (t.applyRow r).newCount d := by
  unfold Table.newCount
  simp only [List.foldl_cons]
  rw [newCount_aux]
  omega

lemma foldl_size_newCount (d : Dataset) (t : Table) (hlim : t.limit = none) :
    (d.foldl Table.applyRow t).size = t.size + t.newCount d := by
  induction d generalizing t with
  | nil => simp [Table.newCount]
  | cons r d ih =>
    rw [List.foldl_cons, ih (t.applyRow r) ((t.applyRow_meta r).2.2.2.trans hlim),
      newCount_cons, applyRow_size_noLimit t r hlim]
    omega

lemma mergeRow_get (t : Table) (old : List Value) (r : InRow) (j : Nat) (n : String)
    (hn : t.names[j]? = some n) :
    (t.mergeRow old r)[j]? = some ((rowLookup r n).getD (old.getD j .null)) := by
  unfold Table.mergeRow
  rw [List.getElem?_map, List.getElem?_enum, hn]
  rfl

lemma findKey_lt_length (t : Table) (c : String) (k : Value) (i : Nat)
    (hf : t.findKey c k = some i) : i < t.rows.length := by
  unfold Table.findKey at hf
  exact (List.findIdx?_eq_some_iff_findIdx_eq.mp hf).1

/-- Claim C1 as stated is false at a concrete input: on an indexed table
constructed with `limit = 1`, updating with a single row whose primary
key matches no existing row follows the append path but wraps, so
`size()` stays 1 instead of increasing by 1 as the claim requires. -/
theorem claim1_indexed_update_counterexample :
    create [("k", [Value.vint 0]), ("v", [Value.vint 0])] (some "k") (some 1)
      = .ok exIdxLim ∧
    exIdxLim.rowIsNew [("k", Value.vint 1)] = true ∧
    exIdxLim.update [[("k", Value.vint 1)]]
      = .ok ({ names := ["k", "v"], types := [CType.integer, CType.integer],
               rows := [[Value.vint 1, Value.null]], index := some "k",
               limit := some 1, counter := 2 }, 0) ∧
    ¬ (1 : Nat) = exIdxLim.size + 1 := by
  exact ⟨rfl, rfl, rfl, by decide⟩

/-- Claim C1 (amended): for an indexed table **without a row limit**,
`update` with a row whose primary-key value matches an existing row
overwrites that row in place — `size()` unchanged, position unchanged,
other rows untouched, columns specified in the partial update replaced
and unspecified columns retaining their prior values — while a row with a
non-matching or missing key is appended at the end, so a batch update
grows `size()` by exactly the number of input rows that took the append
path (each row's key being looked up against the table state at its turn).
With a limit set, appends follow the ring-buffer wrap rule instead and
may overwrite rather than grow the table. -/
theorem claim1_indexed_update (t : Table) (c : String)
    (hix : t.index = some c) (hlim : t.limit = none) :
    (∀ r k i, rowLookup r c = some k → t.findKey c k = some i →
      (t.applyRow r).size = t.size ∧
      (t.applyRow r).rows[i]? = some (t.mergeRow (t.rows.getD i []) r) ∧
      (∀ j, ¬ j = i → (t.applyRow r).rows[j]? = t.rows[j]?) ∧
      (∀ j n, t.names[j]? = some n → rowLookup r n = none →
        (t.mergeRow (t.rows.getD i []) r)[j]?
          = some ((t.rows.getD i []).getD j .null)) ∧
      (∀ (j : Nat) n v, t.names[j]? = some n → rowLookup r n = some v →
        (t.mergeRow (t.rows.getD i []) r)[j]? = some v)) ∧
    (∀ r, t.rowIsNew r = true →
      t.applyRow r = { t with rows := t.rows ++ [t.fullRow r],
                              counter := t.counter + 1 }) ∧
    (∀ d t' n, t.update d = .ok (t', n) → t'.size = t.size + t.newCount d) := by
  refine ⟨?_, ?_, ?_⟩
  · intro r k i hr hf
    have hset := applyRow_match t r c k i hix hr hf
    have hilt := findKey_lt_length t c k i hf
    refine ⟨?_, ?_, ?_, ?_, ?_⟩
    · rw [hset]
      simp [Table.size]
    · rw [hset]
      exact List.getElem?_set_self hilt
    · intro j hj
      rw [hset]
      exact List.getElem?_set_ne (fun h => hj h.symm)
    · intro j n hn hnone
      rw [mergeRow_get t _ r j n hn, hnone]
      rfl
    · intro j n v hn hsome
      rw [mergeRow_get t _ r j n hn, hsome]
      rfl
  · intro r hnew
    exact applyRow_new t r hlim hnew
  · intro d t' n h
    unfold Table.update at h
    split at h
    · cases h
      exact foldl_size_newCount d t hlim
    · exact absurd h (by simp)

/-- Witness for claim C1 at concrete inputs: on `exIdxTable` (one row,
key 0), a matching partial update leaves size and position unchanged and
retains the unspecified column, while an update batch with one fresh key
grows the size by exactly one. -/
theorem claim1_indexed_update_witness :
    (exIdxTable.applyRow [("k", Value.vint 0), ("v", Value.vint 5)]).size
        = exIdxTable.size ∧
    (exIdxTable.applyRow [("k", Value.vint 0), ("v", Value.vint 5)]).rows[0]?
        = some (exIdxTable.mergeRow (exIdxTable.rows.getD 0 [])
            [("k", Value.vint 0), ("v", Value.vint 5)]) ∧
    (exIdxTable.mergeRow (exIdxTable.rows.getD 0 []) [("k", Value.vint 0)])[1]?
        = some ((exIdxTable.rows.getD 0 []).getD 1 .null) ∧
    Table.size
        { names := ["k", "v"], types := [CType.integer, CType.integer],
          rows := [[Value.vint 0, Value.vint 0], [Value.vint 1, Value.null]],
          index := some "k", limit := none, counter := 2 }
      = exIdxTable.size + exIdxTable.newCount [[("k", Value.vint 1)]] := by
  have thm := claim1_indexed_update exIdxTable "k" rfl rfl
  refine ⟨?_, ?_, ?_, ?_⟩
  · exact (thm.1 [("k", Value.vint 0), ("v", Value.vint 5)] (Value.vint 0) 0
      rfl rfl).1
  · exact (thm.1 [("k", Value.vint 0), ("v", Value.vint 5)] (Value.vint 0) 0
      rfl rfl).2.1
  · exact (thm.1 [("k", Value.vint 0)] (Value.vint 0) 0 rfl rfl).2.2.2.1
      1 "v" rfl rfl
  · exact thm.2.2 [[("k", Value.vint 1)]] _ 1 (by rfl)

/-! ### View pipeline lemmas -/

lemma insertBy_false {α : Type} (lt : α → α → Bool)
    (h : ∀ a b, lt a b = false) (x : α) (l : List α) :
    insertBy lt x l = x :: l := by
  cases l with
  | nil => rfl
  | cons y ys => simp [insertBy, h]

lemma sortByLt_false {α : Type} (lt : α → α → Bool)
    (h : ∀ a b, lt a b = false) (l : List α) :
    sortByLt lt l = l := by
  induction l with
  | nil => rfl
  | cons x xs ih => simp [sortByLt, ih, insertBy_false lt h]

/-- Claim C3: a View configured with zero row-pivots, zero column-pivots,
no filters, no sort and no projection materializes exactly its Table's
current rows and columns — the empty-configuration pipeline is the
identity transform. -/
theorem claim3_identity_view (t : Table) :
    materialize t {} = ⟨t.names, t.rows⟩ := by
  show Output.mk t.names
      (sortByLt (rowSortLt t.names []) (t.rows.filter (fun _ => true)))
    = ⟨t.names, t.rows⟩
  rw [List.filter_true, sortByLt_false (rowSortLt t.names []) (fun a b => rfl)]

/-- Claim C5: on the table built from `{"a": [1,2,3], "b": ["x","y","z"]}`,
the view with `row_pivots = ["b"]` and `aggregates = {"a": "sum"}`
materializes the synthetic grand-total row (`a = 6`) followed by exactly
three groups `x, y, z`, each with aggregated `a` equal to its single
contributing row's value (1, 2, 3); the first column is the reserved
pivot-path column for `b` and the trailing column is the default `count`
aggregate of the string pivot column `b`. -/
theorem claim5_pivot_sum_scenario :
    create [("a", [Value.vint 1, Value.vint 2, Value.vint 3]),
            ("b", [Value.vstr "x", Value.vstr "y", Value.vstr "z"])] none none
      = .ok { names := ["a", "b"], types := [CType.integer, CType.string],
              rows := [[Value.vint 1, Value.vstr "x"],
                       [Value.vint 2, Value.vstr "y"],
                       [Value.vint 3, Value.vstr "z"]],
              index := none, limit := none, counter := 3 } ∧
    materialize
      { names := ["a", "b"], types := [CType.integer, CType.string],
        rows := [[Value.vint 1, Value.vstr "x"],
                 [Value.vint 2, Value.vstr "y"],
                 [Value.vint 3, Value.vstr "z"]],
        index := none, limit := none, counter := 3 }
      { row_pivots := ["b"], aggregates := [("a", "sum")] }
    = ⟨["__ROW_PATH__|b", "a", "b"],
       [[Value.null, Value.vint 6, Value.vint 3],
        [Value.vstr "x", Value.vint 1, Value.vint 1],
        [Value.vstr "y", Value.vint 2, Value.vint 1],
        [Value.vstr "z", Value.vint 3, Value.vint 1]]⟩ := by
  exact ⟨rfl, by decide⟩

/-! ### Serialization lemmas -/

lemma mem_insertBy {α : Type} (lt : α → α → Bool) (a x : α) (l : List α)
    (hx : x ∈ insertBy lt a l) : x = a ∨ x ∈ l := by
  induction l with
  | nil => simpa [insertBy] using hx
  | cons y ys ih =>
    simp only [insertBy] at hx
    split at hx
    · rcases List.mem_cons.mp hx with rfl | hx'
      · exact Or.inr (List.mem_cons_self _ _)
      · rcases ih hx' with rfl | h
        · exact Or.inl rfl
        · exact Or.inr (List.mem_cons_of_mem _ h)
    · rcases List.mem_cons.mp hx with rfl | hx'
      · exact Or.inl rfl
      · exact Or.inr hx'

lemma mem_sortByLt {α : Type} (lt : α → α → Bool) (l : List α) :
    ∀ x ∈ sortByLt lt l, x ∈ l := by
  induction l with
  | nil => simp [sortByLt]
  | cons y ys ih =>
    intro x hx
    rcases mem_insertBy lt y x _ hx with rfl | h
    · exact List.mem_cons_self _ _
    · exact List.mem_cons_of_mem _ (ih x h)

lemma groupKeys_length (names cols : List String) (rows : List (List Value)) :
    ∀ g ∈ groupKeys names cols rows, g.length = cols.length := by
  intro g hg
  have h1 := mem_sortByLt keyLt _ g hg
  have h2 := List.mem_dedup.mp h1
  obtain ⟨r, _, rfl⟩ := List.mem_map.mp h2
  simp [keyOf]

lemma length_aggFlatten {α : Type} (ss : List α) (names : List String)
    (g : α → String → Value) :
    ((ss.map (fun s => names.map (g s))).flatten).length
      = ss.length * names.length := by
  induction ss with
  | nil => simp
  | cons s ss ih =>
    simp only [List.map_cons, List.flatten_cons, List.length_append,
      List.length_map, List.length_cons, ih]
    ring

lemma length_pathCols (i : Nat) (cs : List String) :
    (pathCols i cs).length = cs.length := by
  induction cs generalizing i with
  | nil => rfl
  | cons c cs ih => simp [pathCols, ih]

lemma length_splitCols (names : List String) (i : Nat)
    (ss : List (List Value)) :
    (splitCols names i ss).length = ss.length * names.length := by
  induction ss generalizing i with
  | nil => simp [splitCols]
  | cons s ss ih =>
    simp only [splitCols, List.length_append, List.length_map,
      List.length_cons, ih]
    ring

lemma pivotStage_WF (t : Table) (cfg : ViewConfig) (rows : List (List Value)) :
    (pivotStage t cfg rows).WF := by
  unfold pivotStage Output.WF
  dsimp only
  intro r hr
  have hagg : (if cfg.column_pivots.isEmpty then t.names
        else splitCols t.names 0 (splitKeys t.names cfg.column_pivots rows)).length
      = (splitKeys t.names cfg.column_pivots rows).length * t.names.length := by
    cases hcp : cfg.column_pivots.isEmpty with
    | true =>
      rw [if_pos rfl]
      simp [splitKeys, hcp]
    | false =>
      rw [if_neg (by simp [hcp]), length_splitCols]
  rcases List.mem_cons.mp hr with rfl | hr'
  · simp only [List.length_append, List.length_map, length_pathCols,
      length_aggFlatten, hagg]
  · obtain ⟨g, hg, rfl⟩ := List.mem_map.mp hr'
    simp only [List.length_append, length_pathCols, length_aggFlatten, hagg,
      groupKeys_length _ _ _ g hg]

lemma materialize_WF (t : Table) (cfg : ViewConfig) (hwf : t.WF) :
    ∀ r ∈ (materialize t cfg).rows, r.length = (materialize t cfg).cols.length := by
  unfold materialize
  dsimp only
  by_cases hpiv : (cfg.row_pivots.isEmpty && cfg.column_pivots.isEmpty) = true
  · rw [if_pos hpiv]
    cases hcols : cfg.columns with
    | none =>
      dsimp only
      intro r hr
      have hmem := mem_sortByLt _ _ r hr
      exact hwf r (List.mem_of_mem_filter hmem)
    | some cs =>
      dsimp only
      intro r hr
      obtain ⟨r', _, rfl⟩ := List.mem_map.mp hr
      simp
  · rw [if_neg hpiv]
    cases hcols : cfg.columns with
    | none =>
      dsimp only
      intro r hr
      have hmem := mem_sortByLt _ _ r hr
      exact pivotStage_WF t cfg _ r hmem
    | some cs =>
      dsimp only
      intro r hr
      obtain ⟨r', _, rfl⟩ := List.mem_map.mp hr
      simp

lemma replicate_bar_inj (i j : Nat) (c d : List Char)
    (h : List.replicate i (Char.ofNat 42) ++ Char.ofNat 124 :: c
       = List.replicate j (Char.ofNat 42) ++ Char.ofNat 124 :: d) :
    i = j ∧ c = d := by
  induction i generalizing j with
  | zero =>
    cases j with
    | zero =>
      simp only [List.replicate, List.nil_append] at h
      injection h with h1 h2
      exact ⟨rfl, h2⟩
    | succ j =>
      simp only [List.replicate, List.nil_append, List.cons_append] at h
      injection h with h1 h2
      exact absurd h1 (by decide)
  | succ i ih =>
    cases j with
    | zero =>
      simp only [List.replicate, List.nil_append, List.cons_append] at h
      injection h with h1 h2
      exact absurd h1 (by decide)
    | succ j =>
      simp only [List.replicate, List.cons_append] at h
      injection h with h1 h2
      obtain ⟨hij, hcd⟩ := ih j h2
      exact ⟨by omega, hcd⟩

lemma tagName_inj (pre : String) (i j : Nat) (c d : String)
    (h : tagName pre i c = tagName pre j d) : i = j ∧ c = d := by
  unfold tagName at h
  injection h with hd
  rw [List.append_assoc, List.append_assoc] at hd
  obtain ⟨hij, hcd⟩ :=
    replicate_bar_inj i j c.data d.data (List.append_cancel_left hd)
  exact ⟨hij, congrArg String.mk hcd⟩

lemma pathName_ne_splitName (i j : Nat) (c d : String) :
    ¬ pathName i c = splitName j d := by
  intro h
  unfold pathName splitName tagName at h
  injection h with hd
  have hL : ("__ROW_PATH__".data ++ List.replicate i (Char.ofNat 42)
      ++ Char.ofNat 124 :: c.data)[2]? = some (Char.ofNat 82) := rfl
  have hR : ("__SPLIT__".data ++ List.replicate j (Char.ofNat 42)
      ++ Char.ofNat 124 :: d.data)[2]? = some (Char.ofNat 83) := rfl
  rw [hd, hR] at hL
  exact absurd hL (by decide)

lemma reservedPre_pathName (i : Nat) (c : String) :
    reservedPre (pathName i c) = true := rfl

lemma reservedPre_splitName (i : Nat) (c : String) :
    reservedPre (splitName i c) = true := rfl

lemma mem_pathCols (i : Nat) (cs : List String) (s : String)
    (hs : s ∈ pathCols i cs) : ∃ j c, i ≤ j ∧ s = pathName j c := by
  induction cs generalizing i with
  | nil => simp [pathCols] at hs
  | cons c cs ih =>
    rcases List.mem_cons.mp hs with rfl | hs'
    · exact ⟨i, c, le_refl i, rfl⟩
    · obtain ⟨j, c', hj, rfl⟩ := ih (i + 1) hs'
      exact ⟨j, c', by omega, rfl⟩

lemma nodup_pathCols (i : Nat) (cs : List String) : (pathCols i cs).Nodup := by
  induction cs generalizing i with
  | nil => simp [pathCols]
  | cons c cs ih =>
    simp only [pathCols, List.nodup_cons]
    refine ⟨?_, ih (i + 1)⟩
    intro hmem
    obtain ⟨j, c', hj, heq⟩ := mem_pathCols (i + 1) cs _ hmem
    obtain ⟨hij, -⟩ := tagName_inj _ i j c c' heq
    omega

lemma mem_splitCols (names : List String) (i : Nat) (ss : List (List Value))
    (s : String) (hs : s ∈ splitCols names i ss) :
    ∃ j c, i ≤ j ∧ c ∈ names ∧ s = splitName j c := by
  induction ss generalizing i with
  | nil => simp [splitCols] at hs
  | cons s0 ss ih =>
    simp only [splitCols] at hs
    rcases List.mem_append.mp hs with h1 | h2
    · obtain ⟨c, hc, rfl⟩ := List.mem_map.mp h1
      exact ⟨i, c, le_refl i, hc, rfl⟩
    · obtain ⟨j, c, hj, hc, rfl⟩ := ih (i + 1) h2
      exact ⟨j, c, by omega, hc, rfl⟩

lemma nodup_splitCols (names : List String) (hnd : names.Nodup) (i : Nat)
    (ss : List (List Value)) : (splitCols names i ss).Nodup := by
  induction ss generalizing i with
  | nil => simp [splitCols]
  | cons s0 ss ih =>
    simp only [splitCols]
    refine List.Nodup.append ?_ (ih (i + 1)) ?_
    · refine List.Nodup.map_on ?_ hnd
      intro x hx y hy hxy
      exact (tagName_inj _ i i x y hxy).2
    · intro a ha1 ha2
      obtain ⟨c, hc, rfl⟩ := List.mem_map.mp ha1
      obtain ⟨j, c', hj, hc', heq⟩ := mem_splitCols names (i + 1) ss _ ha2
      obtain ⟨hij, -⟩ := tagName_inj _ i j c c' heq
      omega

lemma pivotStage_cols_nodup (t : Table) (cfg : ViewConfig)
    (rows : List (List Value)) (hnd : t.names.Nodup)
    (hres : ∀ n ∈ t.names, reservedPre n = false) :
    (pivotStage t cfg rows).cols.Nodup := by
  unfold pivotStage
  dsimp only
  refine List.Nodup.append (nodup_pathCols 0 _) ?_ ?_
  · cases hcp : cfg.column_pivots.isEmpty with
    | true => rw [if_pos rfl]; exact hnd
    | false => exact nodup_splitCols t.names hnd 0 _
  · intro a ha1 ha2
    obtain ⟨j, c, -, rfl⟩ := mem_pathCols 0 _ a ha1
    cases hcp : cfg.column_pivots.isEmpty with
    | true =>
      simp only [hcp, if_true] at ha2
      exact absurd (reservedPre_pathName j c) (by rw [hres _ ha2]; simp)
    | false =>
      simp only [hcp, Bool.false_eq_true, if_false] at ha2
      obtain ⟨j', c', -, -, heq⟩ := mem_splitCols t.names 0 _ _ ha2
      exact pathName_ne_splitName j j' c c' heq

lemma materialize_cols_nodup (t : Table) (cfg : ViewConfig)
    (hnd : t.names.Nodup) (hres : ∀ n ∈ t.names, reservedPre n = false)
    (hproj : ∀ cs, cfg.columns = some cs → cs.Nodup) :
    (materialize t cfg).cols.Nodup := by
  unfold materialize
  dsimp only
  by_cases hpiv : (cfg.row_pivots.isEmpty && cfg.column_pivots.isEmpty) = true
  · rw [if_pos hpiv]
    cases hcols : cfg.columns with
    | none => exact hnd
    | some cs => exact hproj cs hcols
  · rw [if_neg hpiv]
    cases hcols : cfg.columns with
    | none => exact pivotStage_cols_nodup t cfg _ hnd hres
    | some cs => exact hproj cs hcols

lemma lookup_zip (cols : List String) (r : List Value) (c : String) (i : Nat)
    (hnd : cols.Nodup) (hc : cols[i]? = some c) (hlen : cols.length ≤ r.length) :
    rowLookup (cols.zip r) c = r[i]? := by
  induction cols generalizing r i with
  | nil => simp at hc
  | cons c0 cols ih =>
    cases r with
    | nil => simp at hlen
    | cons v0 r =>
      obtain ⟨hc0, hnd'⟩ := List.nodup_cons.mp hnd
      cases i with
      | zero =>
        rw [List.getElem?_cons_zero] at hc
        cases hc
        simp [rowLookup, List.zip_cons_cons, List.find?_cons]
      | succ i =>
        simp only [List.getElem?_cons_succ] at hc
        have hne : (c0 == c) = false := by
          simp only [beq_eq_false_iff_ne, ne_eq]
          intro h
          exact hc0 (h ▸ List.getElem?_mem hc)
        simp only [List.zip_cons_cons, rowLookup, List.find?_cons, hne,
          List.getElem?_cons_succ]
        simp only [List.length_cons, Nat.add_le_add_iff_right] at hlen
        simpa [rowLookup] using ih r i hnd' hc hlen

lemma roundtrip_output (o : Output) (hnd : o.cols.Nodup)
    (hwf : ∀ r ∈ o.rows, r.length = o.cols.length) :
    recordsToCols o.cols (toRecords o) = toDict o := by
  unfold recordsToCols toRecords toDict
  apply List.ext_getElem?
  intro i
  rw [List.getElem?_map, List.getElem?_map, List.getElem?_enum]
  cases hc : o.cols[i]? with
  | none => rfl
  | some c =>
    simp only [Option.map_some']
    congr 1
    refine congrArg (Prod.mk c) ?_
    rw [List.map_map]
    apply List.map_congr_left
    intro r hr
    have hlen : o.cols.length ≤ r.length := le_of_eq (hwf r hr).symm
    have hl := lookup_zip o.cols r c i hnd hc hlen
    simp only [Function.comp]
    rw [hl, List.getD_eq_getElem?_getD]

/-- Claim C4: for every View — any configuration, pivoted or not —
over a well-formed table (rows match the schema, column names unique per
the data-model invariant, and no user column inside the engine's reserved
`__` namespace), with any projection that is a genuine subset
(duplicate-free), serializing to row-oriented form and reconstructing a
column-oriented form from those records yields exactly the
column-oriented serialization: cell values and null positions agree
column for column and row for row. -/
theorem claim4_serialization_roundtrip (t : Table) (cfg : ViewConfig)
    (hwf : t.WF) (hnd : t.names.Nodup)
    (hres : ∀ n ∈ t.names, reservedPre n = false)
    (hproj : ∀ cs, cfg.columns = some cs → cs.Nodup) :
    recordsToCols (materialize t cfg).cols (toRecords (materialize t cfg))
      = toDict (materialize t cfg) :=
  roundtrip_output _ (materialize_cols_nodup t cfg hnd hres hproj)
    (materialize_WF t cfg hwf)

/-- Witness for claim C4 on a concrete *pivoted* view (row pivot on `b`,
sum aggregate on `a`, no projection) over the 3-row `a`/`b` table. -/
theorem claim4_serialization_roundtrip_witness :
    recordsToCols
        (materialize
          { names := ["a", "b"], types := [CType.integer, CType.string],
            rows := [[Value.vint 1, Value.vstr "x"],
                     [Value.vint 2, Value.vstr "y"],
                     [Value.vint 3, Value.vstr "z"]],
            index := none, limit := none, counter := 3 }
          { row_pivots := ["b"], aggregates := [("a", "sum")] }).cols
        (toRecords
          (materialize
            { names := ["a", "b"], types := [CType.integer, CType.string],
              rows := [[Value.vint 1, Value.vstr "x"],
                       [Value.vint 2, Value.vstr "y"],
                       [Value.vint 3, Value.vstr "z"]],
              index := none, limit := none, counter := 3 }
            { row_pivots := ["b"], aggregates := [("a", "sum")] }))
      = toDict
          (materialize
            { names := ["a", "b"], types := [CType.integer, CType.string],
              rows := [[Value.vint 1, Value.vstr "x"],
                       [Value.vint 2, Value.vstr "y"],
                       [Value.vint 3, Value.vstr "z"]],
              index := none, limit := none, counter := 3 }
            { row_pivots := ["b"], aggregates := [("a", "sum")] }) :=
  claim4_serialization_roundtrip
    { names := ["a", "b"], types := [CType.integer, CType.string],
      rows := [[Value.vint 1, Value.vstr "x"],
               [Value.vint 2, Value.vstr "y"],
               [Value.vint 3, Value.vstr "z"]],
      index := none, limit := none, counter := 3 }
    { row_pivots := ["b"], aggregates := [("a", "sum")] }
    (by unfold Table.WF; decide) (by decide) (by decide) (by simp)

/-! ### Change-propagation lemmas -/

lemma lt_of_getElem?_eq_some {α : Type} {l : List α} {i : Nat} {a : α}
    (h : l[i]? = some a) : i < l.length := by
  by_contra hge
  push_neg at hge
  rw [List.getElem?_eq_none hge] at h
  exact Option.noConfusion h

/-- Claim C6: an `update` whose dataset mentions a column name absent
from the table's schema fails with `ColumnMismatchError` and leaves the
table and every registered view exactly in their pre-call state — the
returned world is the input world, unchanged. -/
theorem claim6_column_mismatch (w : World) (d : Dataset)
    (h : w.table.knownCols d = false) :
    w.update d = (w, .error .columnMismatchError) := by
  unfold World.update Table.update
  rw [h]
  rfl

/-- Witness for claim C6: updating the concrete example world with the
notebook's unknown column `"abcd"` errs and changes nothing. -/
theorem claim6_column_mismatch_witness :
    exObsWorld.update [[("abcd", Value.vint 1)]]
      = (exObsWorld, .error Err.columnMismatchError) :=
  claim6_column_mismatch exObsWorld [[("abcd", Value.vint 1)]] (by decide)

/-- Claim C7: on every successful mutation — `update` or `remove` — each
registered view is recomputed against the post-mutation table and each of
its registered update observers is invoked exactly once, in registration
order, before the call returns (the invocation log is extended by exactly
the registration list, and the materialized state they observe reflects
the mutation); in particular, five sequential updates on a table with one
registered observer produce exactly five invocations. -/
theorem claim7_update_callbacks :
    (∀ (w w' : World) (d : Dataset) (n : Nat), w.update d = (w', .ok n) →
      ∀ (i : Nat) (v : ViewInst), w.views[i]? = some v →
        w'.views[i]? = some { cfg := v.cfg,
                              mat := materialize w'.table v.cfg,
                              updObs := v.updObs,
                              log := v.log ++ v.updObs }) ∧
    (∀ (w w' : World) (ks : List Value) (n : Nat), w.remove ks = (w', .ok n) →
      ∀ (i : Nat) (v : ViewInst), w.views[i]? = some v →
        w'.views[i]? = some { cfg := v.cfg,
                              mat := materialize w'.table v.cfg,
                              updObs := v.updObs,
                              log := v.log ++ v.updObs }) ∧
    ((List.replicate 5 exUpd).foldl (fun w d => (w.update d).1)
        exObsWorld).invocations 0 7 = 5 := by
  refine ⟨?_, ?_, ?_⟩
  · intro w w' d n h i v hv
    unfold World.update at h
    cases hu : w.table.update d with
    | error e =>
      rw [hu] at h
      simp [Prod.ext_iff] at h
    | ok p =>
      obtain ⟨t', δ⟩ := p
      rw [hu] at h
      dsimp only at h
      cases h
      dsimp only
      rw [List.getElem?_map, hv]
      rfl
  · intro w w' ks n h i v hv
    unfold World.remove at h
    cases hu : w.table.remove ks with
    | error e =>
      rw [hu] at h
      simp [Prod.ext_iff] at h
    | ok p =>
      obtain ⟨t', m⟩ := p
      rw [hu] at h
      dsimp only at h
      cases h
      dsimp only
      rw [List.getElem?_map, hv]
      rfl
  · decide

/-- Witness for claim C7 at concrete inputs: one update on the example
world, and one successful remove on the indexed example world, each
extend the single view's log by its registration list `[7]` and
re-materialize it against the new table. -/
theorem claim7_update_callbacks_witness :
    ((exObsWorld.update exUpd).1).views[0]?
      = some { cfg := {},
               mat := materialize ((exObsWorld.update exUpd).1).table {},
               updObs := [7], log := [] ++ [7] } ∧
    ((exIdxWorld.remove [Value.vint 0]).1).views[0]?
      = some { cfg := {},
               mat := materialize ((exIdxWorld.remove [Value.vint 0]).1).table {},
               updObs := [7], log := [] ++ [7] } :=
  ⟨claim7_update_callbacks.1 exObsWorld (exObsWorld.update exUpd).1 exUpd 1 rfl 0
      { cfg := {}, mat := ⟨["a"], [[Value.vint 1]]⟩, updObs := [7], log := [] } rfl,
   claim7_update_callbacks.2.1 exIdxWorld (exIdxWorld.remove [Value.vint 0]).1
      [Value.vint 0] 1 rfl 0
      { cfg := {}, mat := ⟨["k", "v"], [[Value.vint 0, Value.vint 0]]⟩,
        updObs := [7], log := [] } rfl⟩

lemma update_fst_views (w : World) (d : Dataset) (vi : Nat) (v : ViewInst)
    (hv : w.views[vi]? = some v) :
    ∃ v', ((w.update d).1).views[vi]? = some v' ∧
      v'.updObs = v.updObs ∧
      (v'.log = v.log ∨ v'.log = v.log ++ v.updObs) := by
  unfold World.update
  cases hu : w.table.update d with
  | error e => exact ⟨v, hv, rfl, Or.inl rfl⟩
  | ok p =>
    obtain ⟨t', δ⟩ := p
    dsimp only
    refine ⟨World.dispatchView t' v, ?_, rfl, Or.inr rfl⟩
    rw [List.getElem?_map, hv]
    rfl

lemma remove_fst_views (w : World) (ks : List Value) (vi : Nat) (v : ViewInst)
    (hv : w.views[vi]? = some v) :
    ∃ v', ((w.remove ks).1).views[vi]? = some v' ∧
      v'.updObs = v.updObs ∧
      (v'.log = v.log ∨ v'.log = v.log ++ v.updObs) := by
  unfold World.remove
  cases hu : w.table.remove ks with
  | error e => exact ⟨v, hv, rfl, Or.inl rfl⟩
  | ok p =>
    obtain ⟨t', m⟩ := p
    dsimp only
    refine ⟨World.dispatchView t' v, ?_, rfl, Or.inr rfl⟩
    rw [List.getElem?_map, hv]
    rfl

lemma applyMutation_views (w : World) (m : Mutation) (vi : Nat) (v : ViewInst)
    (hv : w.views[vi]? = some v) :
    ∃ v', (w.applyMutation m).views[vi]? = some v' ∧
      v'.updObs = v.updObs ∧
      (v'.log = v.log ∨ v'.log = v.log ++ v.updObs) := by
  cases m with
  | upd d => exact update_fst_views w d vi v hv
  | rem ks => exact remove_fst_views w ks vi v hv

lemma foldl_mutations_count (ms : List Mutation) (w : World) (vi o : Nat)
    (v : ViewInst) (hv : w.views[vi]? = some v) (ho : o ∉ v.updObs) :
    ∃ v', ((ms.foldl World.applyMutation w)).views[vi]? = some v' ∧
      v'.updObs = v.updObs ∧ v'.log.count o = v.log.count o := by
  induction ms generalizing w v with
  | nil => exact ⟨v, hv, rfl, rfl⟩
  | cons m ms ih =>
    simp only [List.foldl_cons]
    obtain ⟨v1, hv1, hobs, hlog⟩ := applyMutation_views w m vi v hv
    obtain ⟨v', hv', hobs', hcount⟩ :=
      ih (w.applyMutation m) v1 hv1 (hobs ▸ ho)
    refine ⟨v', hv', hobs ▸ hobs', ?_⟩
    rcases hlog with hlog | hlog
    · rw [hcount, hlog]
    · rw [hcount, hlog, List.count_append,
        List.count_eq_zero_of_not_mem ho]
      omega

/-- Claim C8: `remove_update` strips the observer from the view's
registration list while leaving the invocation log (its prior count)
untouched; after the removal the observer is never invoked again — its
invocation count is unchanged by any sequence of later mutations
(`update` or `remove`, successful or failed); and calling `remove_update`
with an observer that was never registered is a silent no-op returning
the world unchanged. -/
theorem claim8_remove_update (w : World) (vi o : Nat) :
    (∀ v, w.views[vi]? = some v →
      (w.removeUpdate vi o).views[vi]?
          = some { cfg := v.cfg, mat := v.mat,
                   updObs := v.updObs.filter (fun x => x ≠ o),
                   log := v.log } ∧
      (∀ ms : List Mutation, ∃ v',
        ((ms.foldl World.applyMutation (w.removeUpdate vi o))).views[vi]?
            = some v' ∧
        v'.log.count o = v.log.count o)) ∧
    (∀ v, w.views[vi]? = some v → o ∉ v.updObs → w.removeUpdate vi o = w) := by
  constructor
  · intro v hv
    have hvi : vi < w.views.length := lt_of_getElem?_eq_some hv
    have hset : (w.removeUpdate vi o).views[vi]?
        = some { cfg := v.cfg, mat := v.mat,
                 updObs := v.updObs.filter (fun x => x ≠ o),
                 log := v.log } := by
      unfold World.removeUpdate World.modifyView
      rw [hv]
      dsimp only
      exact List.getElem?_set_self hvi
    refine ⟨hset, ?_⟩
    intro ms
    have hnotin : o ∉ v.updObs.filter (fun x => x ≠ o) := by
      intro hmem
      have hp := List.of_mem_filter hmem
      simp at hp
    obtain ⟨v', hv', _, hcount⟩ := foldl_mutations_count ms
      (w.removeUpdate vi o) vi o _ hset hnotin
    exact ⟨v', hv', hcount⟩
  · intro v hv ho
    have hfilter : v.updObs.filter (fun x => x ≠ o) = v.updObs := by
      apply List.filter_eq_self.mpr
      intro x hx
      simp only [ne_eq, decide_not, Bool.not_eq_eq_eq_not, Bool.not_true,
        decide_eq_false_iff_not]
      intro hxo
      exact ho (hxo ▸ hx)
    have hsetid : w.views.set vi v = w.views := by
      apply List.ext_getElem?
      intro j
      by_cases hj : vi = j
      · subst hj
        rw [List.getElem?_set_self (lt_of_getElem?_eq_some hv), hv]
      · rw [List.getElem?_set_ne hj]
    unfold World.removeUpdate World.modifyView
    rw [hv]
    dsimp only
    rw [hfilter]
    show ({ table := w.table, views := w.views.set vi v } : World) = w
    rw [hsetid]

/-- Witness for claim C8 at concrete inputs: removing observer 7 from the
indexed example world's view empties its registration list without
touching its log; a later successful `remove` mutation followed by an
`update` leaves its invocation count at 0; and removing an unregistered
observer (9) is the identity. -/
theorem claim8_remove_update_witness :
    (exIdxWorld.removeUpdate 0 7).views[0]?
      = some
        { cfg := {},
          mat := ⟨["k", "v"], [[Value.vint 0, Value.vint 0]]⟩,
          updObs := [7].filter (fun x => x ≠ 7),
          log := [] } ∧
    (∃ v', (([Mutation.rem [Value.vint 0],
        Mutation.upd [[("k", Value.vint 3)]]].foldl World.applyMutation
        (exIdxWorld.removeUpdate 0 7))).views[0]? = some v' ∧
      v'.log.count 7 = List.count 7 ([] : List Nat)) ∧
    exIdxWorld.removeUpdate 0 9 = exIdxWorld := by
  have hview : exIdxWorld.views[0]?
      = some
        { cfg := {},
          mat := ⟨["k", "v"], [[Value.vint 0, Value.vint 0]]⟩,
          updObs := [7],
          log := [] } := rfl
  have h1 := (claim8_remove_update exIdxWorld 0 7).1 _ hview
  exact ⟨h1.1,
    h1.2 [Mutation.rem [Value.vint 0], Mutation.upd [[("k", Value.vint 3)]]],
    (claim8_remove_update exIdxWorld 0 9).2 _ hview (by decide)⟩

end Perspective
